import Mathlib

set_option maxHeartbeats 1000000
set_option maxRecDepth 8000

/-!
Verification of the slither.io-compatible game server (Rust sources under
`src/`).  The development shallowly embeds the functions the claims talk
about:

* byte-oriented protocol code (`src/protocol/{reader,writer,incoming,outgoing}.rs`)
  is embedded over `List Nat` (bytes) and `Nat`/`Int` machine integers,
  with two's-complement wrap written explicitly as `% 2^w`;
* the 64-bit LCG (`src/game/math.rs`) is embedded over `Nat`, and its
  `f32` conversion is embedded exactly: converting an integer `v < 2^64`
  to `f32` rounds it to the nearest integer with at most 24 significant
  bits (ties to even), and the subsequent division by `u64::MAX as f32 = 2^64`
  is exact in `f32`, so the quotient is represented exactly as a rational;
* 32-bit float world/angle arithmetic (`src/game/{snake,math}.rs`,
  `src/server/handler.rs`) is idealized as exact arithmetic: angles over `ℝ`
  (with Rust's `%` and `rem_euclid` for `f32` translated to their exact
  real counterparts), world coordinates over `ℚ`;
* the grid bookkeeping of `src/game/{world,sector}.rs` is embedded with the
  per-tick head displacement (trigonometric `f32` code) abstracted as an
  arbitrary displacement function, so the proved invariant holds for every
  possible motion.
-/

/-! ## Byte primitives (src/protocol/writer.rs) -/

/-- Big-endian serialization of a `u16` (`PacketWriter::write_u16`,
`bytes::BufMut::put_u16`). -/
def be16 (n : Nat) : List Nat :=
  [n / 256 % 256, n % 256]

/-- Big-endian serialization of the low 24 bits of a `u32`
(`PacketWriter::write_u24`: pushes `(v>>16) as u8`, `(v>>8) as u8`, `v as u8`). -/
def be24 (n : Nat) : List Nat :=
  [n / 65536 % 256, n / 256 % 256, n % 256]

/-- Embedding of `PacketWriter::write_relative_coord`:
`(v + 128).clamp(0, 255) as u8`. -/
def writeRelativeCoord (v : Int) : Nat :=
  (min (max (v + 128) 0) 255).toNat

/-- Embedding of `PacketReader::read_relative_coord`: `byte as i16 - 128`. -/
def readRelativeCoord (b : Nat) : Int :=
  (b : Int) - 128

/-! ## Stacked-packet framing (src/protocol/reader.rs, spec section 4.2) -/

/-- Modelled from the spec (section 4.2), which defines how clients frame each
sub-packet: a one-byte prefix `len + 32` when `len ≤ 223`, otherwise a
two-byte big-endian prefix (whose first byte is `len / 256 < 32` for
`len < 8192`).  The server source only contains the decoder. -/
def frameSubPacket (p : List Nat) : List Nat :=
  if p.length ≤ 223 then (p.length + 32) :: p
  else p.length / 256 :: p.length % 256 :: p

/-- Embedding of the loop body of `parse_stacked_packets`.  The source walks a
byte array with a cursor `pos`; the cursor is represented here by the
remaining suffix of the input, and the loop by recursion with an explicit
fuel counter (one unit per iteration; fuel equal to the input length is
always sufficient because every iteration consumes at least the one-byte
length prefix, and `parseStackedFuel_congr` below shows any sufficient fuel
gives the same result).  A first byte `< 32` starts a two-byte big-endian
length (`(b0 << 8) | b1`), breaking if no second byte remains; otherwise the
length is `b0 - 32`.  The loop breaks when a length would exceed the
remaining bytes. -/
def parseStackedFuel : Nat → List Nat → List (List Nat)
  | 0, _ => []
  | _ + 1, [] => []
  | fuel + 1, b0 :: rest =>
    if b0 < 32 then
      match rest with
      | [] => []
      | b1 :: rest2 =>
        if b0 * 256 + b1 ≤ rest2.length then
          rest2.take (b0 * 256 + b1) :: parseStackedFuel fuel (rest2.drop (b0 * 256 + b1))
        else []
    else
      if b0 - 32 ≤ rest.length then
        rest.take (b0 - 32) :: parseStackedFuel fuel (rest.drop (b0 - 32))
      else []

/-- The parsing loop run on a byte suffix, with its (sufficient) fuel. -/
def parseStackedGo (data : List Nat) : List (List Nat) :=
  parseStackedFuel data.length data

/-- Embedding of `parse_stacked_packets(data, offset)`: parsing starts at the
byte at index `offset`. -/
def parseStackedPackets (data : List Nat) (offset : Nat) : List (List Nat) :=
  parseStackedGo (data.drop offset)

/-! ## Incoming packets (src/protocol/incoming.rs)

Strings in the source (`String::from_utf8_lossy`) are kept as raw byte
lists; the checksum array `[u8; 20]` is a byte list of length 20. -/

/-- Embedding of `enum IncomingPacket`. -/
inductive IncomingPacket where
  | protocolMode (wantEtm : Bool)
  | startLogin
  | login (protocolVersion version : Nat) (checksum : List Nat) (skin : Nat)
      (nickname : List Nat) (customSkin : Option (List Nat))
  | setIdentity (protocolVersion skin : Nat) (nickname : List Nat)
      (customSkin : Option (List Nat))
  | rotationPkt (value : Nat) (isLegacyLeft isLegacyRight : Bool)
  | anglePkt (angle : Nat)
  | startAcceleration
  | stopAcceleration
  | ping
  | victoryMessage (msg : List Nat)
  | unknown (cmd : Nat) (rest : List Nat)
  deriving DecidableEq

/-- Embedding of `RotationPacket::is_clockwise`. -/
def rotationIsClockwise (value : Nat) (isLegacyLeft isLegacyRight : Bool) : Bool :=
  if isLegacyRight then true
  else if isLegacyLeft then false
  else 128 ≤ value

/-- Embedding of `RotationPacket::intensity`. -/
def rotationIntensity (value : Nat) (isLegacyLeft isLegacyRight : Bool) : Nat :=
  if isLegacyLeft || isLegacyRight then value
  else if 128 ≤ value then value - 128
  else value

/-- Embedding of `parse_username_packet` (the payload after the `'s'` command
byte).  The first payload byte is the client protocol; the packet is treated as
an official login when that byte is `≥ 25` and the payload has at least
`1+2+20+1+1 = 25` bytes, otherwise as a plain identity packet. -/
def parseUsernamePacket (data : List Nat) : Except String IncomingPacket :=
  match data with
  | [] => .error "username packet empty"
  | clientProtocol :: _ =>
    if 25 ≤ clientProtocol ∧ 25 ≤ data.length then
      if data.length < 3 then .error "missing client_version"
      else
        let version := data.getD 1 0 * 256 + data.getD 2 0
        if data.length < 23 then .error "missing checksum"
        else
          let checksum := (data.drop 3).take 20
          if data.length ≤ 23 then .error "missing skin"
          else
            let skin := data.getD 23 0
            if data.length ≤ 24 then .error "missing name length"
            else
              let nameLen := data.getD 24 0
              if data.length < 25 + nameLen then .error "name truncated"
              else
                let nickname := (data.drop 25).take nameLen
                .ok (.login clientProtocol version checksum skin nickname none)
    else
      if data.length < 3 then .error "identity packet too short"
      else
        let skin := data.getD 1 0
        let nameLen := data.getD 2 0
        let nameEnd := min (3 + nameLen) data.length
        let nickname := (data.drop 3).take (nameEnd - 3)
        let customSkin := if nameEnd < data.length then some (data.drop nameEnd) else none
        .ok (.setIdentity clientProtocol skin nickname customSkin)

/-- Embedding of `parse_incoming_packet`.  The unused `protocol_version`
argument of the source is dropped.  Note the source returns
`Unknown(cmd, data[1..])` for every message of exactly 24 bytes before any
command dispatch. -/
def parseIncomingPacket (data : List Nat) : Except String IncomingPacket :=
  match data with
  | [] => .error "empty packet"
  | cmd :: rest =>
    if rest.length + 1 = 24 then .ok (.unknown cmd rest)
    else if cmd = 99 then .ok .startLogin
    else if cmd = 115 then parseUsernamePacket rest
    else if rest.length + 1 = 1 ∧ (cmd = 1 ∨ cmd = 2) then
      .ok (.protocolMode (cmd = 2))
    else if rest.length + 1 = 1 ∧ cmd ≤ 250 then .ok (.anglePkt cmd)
    else if cmd = 252 then
      match rest with
      | v :: _ => .ok (.rotationPkt v false false)
      | [] => .ok (.rotationPkt 0 false false)
    else if cmd = 108 then
      .ok (.rotationPkt (match rest with | v :: _ => v | [] => 64) true false)
    else if cmd = 114 then
      .ok (.rotationPkt (match rest with | v :: _ => v | [] => 64) false true)
    else if cmd = 253 then .ok .startAcceleration
    else if cmd = 254 then .ok .stopAcceleration
    else if cmd = 251 then .ok .ping
    else if cmd = 255 then
      .ok (.victoryMessage
        (if 2 < rest.length + 1 ∧ rest.getD 0 0 = 118 then rest.drop 1
         else if 1 < rest.length + 1 then rest
         else []))
    else .ok (.unknown cmd rest)

/-! ## Deterministic RNG (src/game/math.rs, `SimpleRng`) -/

/-- Embedding of `SimpleRng` (a 64-bit state). -/
structure SimpleRng where
  state : Nat
  deriving DecidableEq

/-- Embedding of `SimpleRng::next_u64`: the state becomes
`state * 6364136223846793005 + 1` with `u64` wrap-around, and the new state is
returned. -/
def rngNextU64 (r : SimpleRng) : Nat × SimpleRng :=
  let s := (r.state * 6364136223846793005 + 1) % 2 ^ 64
  (s, ⟨s⟩)

/-- Floor of the base-2 logarithm computed with explicit fuel (64 suffices for
every `u64` value); used to locate the binade of an `f32` conversion. -/
def log2Fuel : Nat → Nat → Nat
  | 0, _ => 0
  | fuel + 1, n => if n < 2 then 0 else log2Fuel fuel (n / 2) + 1

/-- Exact model of Rust's `v as f32` for `v : u64`, returned as a natural
number (every `f32` obtained this way is a nonnegative integer `≤ 2^64`).
IEEE-754 `f32` has a 24-bit significand, so `v` is rounded to the nearest
multiple of the unit in the last place `2^(⌊log₂ v⌋ - 23)`, ties to even
(the quotient and remainder of `v` by that unit decide the direction). -/
def u64ToF32 (v : Nat) : Nat :=
  if v < 2 ^ 24 then v
  else
    if 2 * (v % 2 ^ (log2Fuel 64 v - 23)) < 2 ^ (log2Fuel 64 v - 23) then
      v / 2 ^ (log2Fuel 64 v - 23) * 2 ^ (log2Fuel 64 v - 23)
    else if 2 ^ (log2Fuel 64 v - 23) < 2 * (v % 2 ^ (log2Fuel 64 v - 23)) then
      (v / 2 ^ (log2Fuel 64 v - 23) + 1) * 2 ^ (log2Fuel 64 v - 23)
    else if v / 2 ^ (log2Fuel 64 v - 23) % 2 = 0 then
      v / 2 ^ (log2Fuel 64 v - 23) * 2 ^ (log2Fuel 64 v - 23)
    else (v / 2 ^ (log2Fuel 64 v - 23) + 1) * 2 ^ (log2Fuel 64 v - 23)

/-- Exact model of `SimpleRng::next_f32`: `(self.next_u64() as f32) / (u64::MAX as f32)`.
Both casts round to `f32` as in `u64ToF32`; the `f32` division is then exact,
because the numerator is an `f32` value `m·2^k` with `m < 2^24` and the
denominator is `u64ToF32 (2^64 - 1) = 2^64`, so the quotient `m·2^(k-64)` is
itself representable.  The exact rational quotient is therefore the value the
Rust code computes. -/
def rngNextF32 (r : SimpleRng) : ℚ × SimpleRng :=
  let (v, r2) := rngNextU64 r
  ((u64ToF32 v : ℚ) / (u64ToF32 (2 ^ 64 - 1) : ℚ), r2)

/-! ## Food storage (src/game/food.rs) -/

/-- Embedding of `struct Food` (`x`, `y` are `u16`; `size`, `color` are `u8`). -/
structure Food where
  x : Nat
  y : Nat
  size : Nat
  color : Nat
  deriving DecidableEq

/-- Embedding of `Food::value`: `self.size as u16 * 2`. -/
def Food.value (f : Food) : Nat := f.size * 2

/-- Squared distance computed by `FoodCollection::remove_at_position` and
`find_in_radius`: `dx`, `dy` are absolute differences as `u32`, and
`dx*dx + dy*dy` is `u32` arithmetic (wrap-around written explicitly). -/
def foodDistSq (f : Food) (x y : Nat) : Nat :=
  let dx := ((f.x : Int) - (x : Int)).natAbs
  let dy := ((f.y : Int) - (y : Int)).natAbs
  (dx * dx + dy * dy) % 2 ^ 32

/-- Embedding of `Vec::swap_remove(i)`: the element at `i` is replaced by the
last element, and the last element is popped.  (The source only calls it with
`i` in bounds.) -/
def swapRemove {α : Type} (l : List α) (i : Nat) : List α :=
  match l.getLast? with
  | none => l
  | some last => (l.set i last).dropLast

/-- Embedding of the loop of `FoodCollection::remove_at_position(x, y, tolerance)`:
scan indices `0..len` and, at the first food whose wrapped squared distance to
`(x, y)` is `≤ tolerance²`, return it together with the vector after
`swap_remove` of that index.  The loop index `i` walks the list `all`; the
argument of the structural recursion is the remaining suffix `all.drop i`.
Returns the updated food list alongside the removed food (the Rust method
mutates in place). -/
def removeAtPositionGo (all : List Food) (x y tolSq : Nat) :
    List Food → Nat → Option (Food × List Food)
  | [], _ => none
  | f :: rest, i =>
    if foodDistSq f x y ≤ tolSq then some (f, swapRemove all i)
    else removeAtPositionGo all x y tolSq rest (i + 1)

/-- Embedding of `FoodCollection::remove_at_position` (the capacity field of
`FoodCollection` plays no role in removal and is not carried). -/
def removeAtPosition (foods : List Food) (x y tolerance : Nat) :
    Option (Food × List Food) :=
  removeAtPositionGo foods x y (tolerance * tolerance) foods 0

/-! ## Fullness encoding (src/protocol/writer.rs, src/server/handler.rs)

The handler computes `snake.fullness as f32 / 100.0` and
`PacketWriter::write_fp24` computes `(v.clamp(0.0, 1.0) * 16777215.0) as u32`.
The `f32` arithmetic is idealized as exact rational arithmetic; the cast
`as u32` truncates the nonnegative result toward zero, i.e. takes the floor. -/

/-- Embedding of `PacketWriter::write_fp24`, returning the 24-bit integer that
is then written big-endian. -/
def fp24Encode (v : ℚ) : Nat :=
  ⌊(if v < 0 then 0 else if 1 < v then 1 else v) * 16777215⌋₊

/-- Embedding of `PacketSetFullness::serialize` (src/protocol/outgoing.rs):
command byte `'h'` (104), big-endian `u16` snake id, then the fp24 value. -/
def packetSetFullnessBytes (snakeId : Nat) (fullness : ℚ) : List Nat :=
  104 :: (be16 snakeId ++ be24 (fp24Encode fullness))

/-- Embedding of the `SetFullness` emission in `GameHandler::broadcast_updates`:
the packet is built with `fullness: snake.fullness as f32 / 100.0` where the
snake's fullness accumulator is a `u32`. -/
def emitSetFullness (snakeId fullness : Nat) : List Nat :=
  packetSetFullnessBytes snakeId ((fullness : ℚ) / 100)

/-! ## Exact real models of Rust f32 remainder operations (src/game/math.rs)

Rust's `%` on floats takes the sign of the dividend (truncated division);
`rem_euclid` returns a result in `[0, |y|)`.  Both are translated to their
exact real counterparts; `emod` is the mathematical floor-modulus used to
state their properties. -/

/-- Truncation toward zero on the reals (the rounding used by Rust's float `%`). -/
noncomputable def rtrunc (x : ℝ) : ℤ :=
  if 0 ≤ x then ⌊x⌋ else ⌈x⌉

/-- Exact model of Rust's `%` on `f32`: `x - y * trunc(x / y)`. -/
noncomputable def frem (x y : ℝ) : ℝ :=
  x - y * rtrunc (x / y)

/-- Exact model of `f32::rem_euclid`: `r = x % y`, plus `|y|` if `r` is negative. -/
noncomputable def remEuclid (x y : ℝ) : ℝ :=
  if frem x y < 0 then frem x y + |y| else frem x y

/-- Mathematical floor modulus, used to characterize `frem`/`remEuclid`. -/
noncomputable def emod (x y : ℝ) : ℝ :=
  x - y * ⌊x / y⌋

/-- Embedding of `normalize_angle` (src/game/math.rs):
`((angle % two_pi) + two_pi) % two_pi`. -/
noncomputable def normalizeAngle (a : ℝ) : ℝ :=
  frem (frem a (2 * Real.pi) + 2 * Real.pi) (2 * Real.pi)

/-- Embedding of `angle_difference` (src/game/math.rs): normalize `to - from`,
and subtract `2π` when the result exceeds `π`. -/
noncomputable def angleDifference (from1 to1 : ℝ) : ℝ :=
  let diff := normalizeAngle (to1 - from1)
  if Real.pi < diff then diff - 2 * Real.pi else diff

/-- Embedding of `is_clockwise` (src/protocol/types.rs):
`(target_angle - current_angle).rem_euclid(2π) > π`. -/
noncomputable def isClockwiseAngles (currentAngle targetAngle : ℝ) : Prop :=
  Real.pi < remEuclid (targetAngle - currentAngle) (2 * Real.pi)

/-! ## Snake state (src/game/snake.rs)

`f32` fields are idealized as reals, `u32`/`u8` fields are naturals (with
explicit wrap where the source can overflow), the body is the list of part
positions from head to tail, and the change bitset is the `u8` of
`SnakeChanges` (src/protocol/types.rs: POS 0x01, ANGLE 0x02, WANGLE 0x04,
SPEED 0x08, FULLNESS 0x10, DYING 0x20, DEAD 0x40).  The bounding box and
viewport aggregates are carried as tuples. -/

structure Snake where
  id : Nat
  skin : Nat
  changes : Nat
  accelerating : Bool
  isBot : Bool
  newlySpawned : Bool
  name : List Nat
  customSkin : Option (List Nat)
  speed : ℝ
  angle : ℝ
  targetAngle : ℝ
  fullness : Nat
  boundingBox : ℝ × ℝ × ℝ
  viewport : ℝ × ℝ × ℝ × ℝ
  body : List (ℝ × ℝ)
  foodsEaten : List Food
  foodsSpawned : List Food
  kills : Nat
  dying : Bool
  dead : Bool
  rotTimeAccum : Nat
  aiTimeAccum : Nat
  prevHead : ℝ × ℝ

/-- Embedding of `Snake::set_target_angle`: normalize the argument and update
`target_angle` (setting the WANGLE change bit) only when the normalized value
differs from the current target by more than `0.001`. -/
noncomputable def setTargetAngle (s : Snake) (a : ℝ) : Snake :=
  if 0.001 < |normalizeAngle a - s.targetAngle| then
    { s with targetAngle := normalizeAngle a, changes := s.changes ||| 4 }
  else s

/-- Embedding of `Snake::try_grow`: when the body is shorter than
`min(fullness / 100, 500) + 10` (integer division), append one copy of the
current tail part. -/
def tryGrow (s : Snake) : Snake :=
  let targetParts := min (s.fullness / 100) 500 + 10
  if s.body.length < targetParts then
    match s.body.getLast? with
    | some tail => { s with body := s.body ++ [tail] }
    | none => s
  else s

/-- Embedding of `Snake::eat_food`: add the food's value to the `u32` fullness
accumulator (wrap written explicitly), record the food, set the FULLNESS
change bit, then `try_grow`. -/
def eatFood (s : Snake) (food : Food) : Snake :=
  tryGrow
    { s with
      fullness := (s.fullness + food.value) % 2 ^ 32
      foodsEaten := s.foodsEaten ++ [food]
      changes := s.changes ||| 16 }

/-- Embedding of `GameHandler::handle_rotation` (src/server/handler.rs), at the
level of the snake the session resolves to: the intensity is scaled to
`π · intensity/127`, negated when the packet is clockwise, and
`set_target_angle(snake.angle + delta * 0.1)` is applied. -/
noncomputable def handleRotation (s : Snake) (value : Nat)
    (isLegacyLeft isLegacyRight : Bool) : Snake :=
  setTargetAngle s (s.angle +
    (if rotationIsClockwise value isLegacyLeft isLegacyRight then
      -(Real.pi * ((rotationIntensity value isLegacyLeft isLegacyRight : ℝ) / 127))
    else Real.pi * ((rotationIntensity value isLegacyLeft isLegacyRight : ℝ) / 127)) * 0.1)

/-! ## Rotation packet serialization (src/protocol/outgoing.rs) -/

/-- Embedding of `struct PacketRotation`. -/
structure PacketRotation where
  snakeId : Nat
  angle : ℝ
  targetAngle : ℝ
  speed : ℝ
  includeAngle : Bool
  includeTarget : Bool
  clockwise : Bool

/-- Command byte chosen by `PacketRotation::serialize` (`'4'` = 52, `'5'` = 53,
`'e'` = 101, `'3'` = 51, `'E'` = 69). -/
def rotationCommandByte (clockwise includeAngle includeTarget : Bool) : Nat :=
  if clockwise then
    if includeAngle then 52 else 53
  else if includeAngle && includeTarget then 101
  else if includeAngle then 51
  else 69

/-- Embedding of `PacketWriter::write_angle8`: `rem_euclid` by `2π`, scale to
`[0, 256)`, and cast to `u8` (truncation of a nonnegative value, saturating at
255). -/
noncomputable def angle8Encode (a : ℝ) : Nat :=
  min (⌊remEuclid a (2 * Real.pi) / (2 * Real.pi) * 256⌋₊) 255

/-- Embedding of `PacketWriter::write_speed`: `(speed / 18.0) as u8`. -/
noncomputable def speedByte (speed : ℝ) : Nat :=
  min (⌊speed / 18⌋₊) 255

/-- Embedding of `PacketRotation::serialize`: command byte, big-endian id,
optional angle8 heading, optional angle8 target, speed byte. -/
noncomputable def packetRotationBytes (p : PacketRotation) : List Nat :=
  rotationCommandByte p.clockwise p.includeAngle p.includeTarget ::
    (be16 p.snakeId ++
      (if p.includeAngle then [angle8Encode p.angle] else []) ++
      (if p.includeTarget then [angle8Encode p.targetAngle] else []) ++
      [speedByte p.speed])

/-! ## World and spatial grid (src/game/{world,sector}.rs)

Only the state the claim C8 is about is carried: the id-to-head-position
mapping (the `HashMap` keyed by snake id, as an association list whose keys
are unique in every reachable state), the fresh-id counter `next_snake_id`,
and the per-cell snake-id sets of the 90×90 grid (`GameConfig::default`:
`sector_count_along_edge = 90`, `sector_size = 480`).  The grid is a function
from cell coordinates to the `HashSet<SnakeId>` of that cell (cells outside
the 90×90 range exist in the model but stay empty, mirroring the `get_mut`
bound check).  Food storage, per-tick scratch lists and the remaining snake
attributes are not touched by any operation below and are omitted.

Inside `Snake::tick` the head moves by trigonometric `f32` arithmetic; the
model abstracts this as an arbitrary displacement oracle `mv`, so everything
proved below holds for every possible head motion.  The phases of
`World::tick` that follow the per-snake pass (collisions, eating, food
spawning, dead-snake processing) neither move heads nor touch the grid's
snake sets — killed snakes stay in the map with their heads in place — and
the optional bot respawn adds one snake exactly like `create_snake`; the
model's tick therefore is the per-snake pass followed by an optional spawn. -/

/-- Embedding of `SectorGrid::world_to_sector`:
`((x / 480).floor() as i32).clamp(0, 89)` per axis (world coordinates are
idealized as exact rationals). -/
def worldToSector (p : ℚ × ℚ) : Nat × Nat :=
  ((min (max ⌊p.1 / 480⌋ 0) 89).toNat, (min (max ⌊p.2 / 480⌋ 0) 89).toNat)

/-- Embedding of `SectorGrid::add_snake`: insert the id into the set of the
sector of `p` (the `get_mut` bound check is kept, though clamping always
lands in range). -/
def gridAddSnake (g : Nat × Nat → Finset Nat) (id : Nat) (p : ℚ × ℚ) :
    Nat × Nat → Finset Nat :=
  let c := worldToSector p
  if c.1 < 90 ∧ c.2 < 90 then
    fun c2 => if c2 = c then insert id (g c2) else g c2
  else g

/-- Embedding of `SectorGrid::remove_snake`. -/
def gridRemoveSnake (g : Nat × Nat → Finset Nat) (id : Nat) (p : ℚ × ℚ) :
    Nat × Nat → Finset Nat :=
  let c := worldToSector p
  if c.1 < 90 ∧ c.2 < 90 then
    fun c2 => if c2 = c then (g c2).erase id else g c2
  else g

/-- Embedding of `SectorGrid::update_snake_sector`: remove and re-insert only
when the sector changed. -/
def gridUpdateSnakeSector (g : Nat × Nat → Finset Nat) (id : Nat)
    (oldp newp : ℚ × ℚ) : Nat × Nat → Finset Nat :=
  if worldToSector oldp ≠ worldToSector newp then
    gridAddSnake (gridRemoveSnake g id oldp) id newp
  else g

/-- Projection of `struct World` carrying the state claim C8 is about. -/
structure WorldM where
  nextId : Nat
  snakes : List (Nat × (ℚ × ℚ))
  grid : Nat × Nat → Finset Nat

/-- Lookup in the id-to-head association list (`HashMap::get`). -/
def lookupPos : List (Nat × (ℚ × ℚ)) → Nat → Option (ℚ × ℚ)
  | [], _ => none
  | (i, p) :: rest, id => if i = id then some p else lookupPos rest id

/-- In-place update of a snake's head position (`HashMap::get_mut` plus
mutation). -/
def setPos (l : List (Nat × (ℚ × ℚ))) (id : Nat) (p : ℚ × ℚ) :
    List (Nat × (ℚ × ℚ)) :=
  l.map fun e => if e.1 = id then (e.1, p) else e

/-- Embedding of `World::create_snake` (and of the identically-shaped
`World::spawn_bot`), with the spawn position — `find_safe_spawn`, float
arithmetic over the RNG — supplied as an argument: take the next id, insert
the snake at `p`, and register its head cell. -/
def createSnakeW (w : WorldM) (p : ℚ × ℚ) : WorldM :=
  { nextId := w.nextId + 1
    snakes := (w.nextId, p) :: w.snakes
    grid := gridAddSnake w.grid w.nextId p }

/-- Embedding of `World::remove_snake`: drop the map entry and remove the id
from the cell of its current head. -/
def removeSnakeW (w : WorldM) (id : Nat) : WorldM :=
  match lookupPos w.snakes id with
  | some p =>
      { w with
        snakes := w.snakes.filter fun e => e.1 ≠ id
        grid := gridRemoveSnake w.grid id p }
  | none => w

/-- One iteration of the per-snake pass of `World::tick`: record the old head,
move it (`Snake::tick`, abstracted by the displacement oracle `mv`), and
update the grid cell. -/
def tickSnakeStep (mv : Nat → ℚ × ℚ → ℚ × ℚ) (w : WorldM) (id : Nat) : WorldM :=
  match lookupPos w.snakes id with
  | some oldp =>
      let newp := mv id oldp
      { w with
        snakes := setPos w.snakes id newp
        grid := gridUpdateSnakeSector w.grid id oldp newp }
  | none => w

/-- Embedding of `World::tick` restricted to the state of claim C8: the
per-snake pass over the ids collected at entry, then the optional single bot
respawn (at an oracle-supplied position). -/
def tickW (w : WorldM) (mv : Nat → ℚ × ℚ → ℚ × ℚ) (spawn : Option (ℚ × ℚ)) :
    WorldM :=
  let w2 := (w.snakes.map Prod.fst).foldl (tickSnakeStep mv) w
  match spawn with
  | some p => createSnakeW w2 p
  | none => w2

/-- The world as built by `World::new` (no snakes, empty grid, ids start at 1). -/
def initialWorld : WorldM :=
  { nextId := 1, snakes := [], grid := fun _ => ∅ }

/-- World states reachable from `World::new` by snake creation (including bot
spawning), ticking, and snake removal. -/
inductive ReachableW : WorldM → Prop
  | init : ReachableW initialWorld
  | create (w : WorldM) (p : ℚ × ℚ) : ReachableW w → ReachableW (createSnakeW w p)
  | tick (w : WorldM) (mv : Nat → ℚ × ℚ → ℚ × ℚ) (spawn : Option (ℚ × ℚ)) :
      ReachableW w → ReachableW (tickW w mv spawn)
  | remove (w : WorldM) (id : Nat) : ReachableW w → ReachableW (removeSnakeW w id)

/-- A concrete snake used to instantiate the theorems about `Snake` at
specific states (fields not under test are zeroed). -/
def snakeBase : Snake where
  id := 1
  skin := 0
  changes := 0
  accelerating := false
  isBot := false
  newlySpawned := false
  name := []
  customSkin := none
  speed := 0
  angle := 0
  targetAngle := 0
  fullness := 0
  boundingBox := (0, 0, 0)
  viewport := (0, 0, 0, 0)
  body := []
  foodsEaten := []
  foodsSpawned := []
  kills := 0
  dying := false
  dead := false
  rotTimeAccum := 0
  aiTimeAccum := 0
  prevHead := (0, 0)

/-! ## Helper lemmas about the exact remainder operations -/

theorem emod_eq_mul_fract (x y : ℝ) (hy : y ≠ 0) :
    emod x y = y * Int.fract (x / y) := by
  unfold emod Int.fract
  field_simp

theorem emod_nonneg (x y : ℝ) (hy : 0 < y) : 0 ≤ emod x y := by
  rw [emod_eq_mul_fract x y hy.ne']
  exact mul_nonneg hy.le (Int.fract_nonneg _)

theorem emod_lt (x y : ℝ) (hy : 0 < y) : emod x y < y := by
  rw [emod_eq_mul_fract x y hy.ne']
  calc y * Int.fract (x / y) < y * 1 := by
        exact (mul_lt_mul_left hy).mpr (Int.fract_lt_one _)
    _ = y := mul_one y

theorem emod_eq_self (x y : ℝ) (h0 : 0 ≤ x) (h1 : x < y) : emod x y = x := by
  have hy : 0 < y := lt_of_le_of_lt h0 h1
  have hfloor : ⌊x / y⌋ = 0 := by
    rw [Int.floor_eq_zero_iff]
    constructor
    · positivity
    · rw [div_lt_one hy]
      exact h1
  unfold emod
  rw [hfloor]
  simp

theorem emod_add_self (x y : ℝ) (hy : y ≠ 0) : emod (x + y) y = emod x y := by
  unfold emod
  have : (x + y) / y = x / y + 1 := by field_simp
  rw [this, Int.floor_add_one]
  push_cast
  ring

theorem frem_eq_emod_or (x y : ℝ) : frem x y = emod x y ∨ frem x y = emod x y - y := by
  unfold frem emod rtrunc
  by_cases h : 0 ≤ x / y
  · left
    rw [if_pos h]
  · rw [if_neg h]
    have h1 : ⌊x / y⌋ ≤ ⌈x / y⌉ := Int.floor_le_ceil _
    have h2 : ⌈x / y⌉ ≤ ⌊x / y⌋ + 1 := Int.ceil_le_floor_add_one _
    rcases (by omega : ⌈x / y⌉ = ⌊x / y⌋ ∨ ⌈x / y⌉ = ⌊x / y⌋ + 1) with h3 | h3
    · left
      rw [h3]
    · right
      rw [h3]
      push_cast
      ring

theorem frem_eq_emod_of_nonneg (x y : ℝ) (hx : 0 ≤ x) (hy : 0 < y) :
    frem x y = emod x y := by
  unfold frem emod rtrunc
  rw [if_pos (by positivity)]

theorem remEuclid_eq_emod (x y : ℝ) (hy : 0 < y) : remEuclid x y = emod x y := by
  unfold remEuclid
  rcases frem_eq_emod_or x y with h | h
  · rw [h, if_neg (not_lt.mpr (emod_nonneg x y hy))]
  · have hlt : emod x y - y < 0 := sub_neg.mpr (emod_lt x y hy)
    rw [h, if_pos hlt, abs_of_pos hy]
    ring

theorem normalizeAngle_eq_emod (a : ℝ) : normalizeAngle a = emod a (2 * Real.pi) := by
  have h2pi : (0 : ℝ) < 2 * Real.pi := by positivity
  unfold normalizeAngle
  rcases frem_eq_emod_or a (2 * Real.pi) with h | h
  · rw [h, frem_eq_emod_of_nonneg _ _ (by
        have := emod_nonneg a (2 * Real.pi) h2pi
        linarith) h2pi,
      emod_add_self _ _ h2pi.ne',
      emod_eq_self _ _ (emod_nonneg a _ h2pi) (emod_lt a _ h2pi)]
  · rw [h]
    have heq : emod a (2 * Real.pi) - 2 * Real.pi + 2 * Real.pi = emod a (2 * Real.pi) := by
      ring
    rw [heq, frem_eq_emod_of_nonneg _ _ (emod_nonneg a _ h2pi) h2pi,
      emod_eq_self _ _ (emod_nonneg a _ h2pi) (emod_lt a _ h2pi)]

theorem normalizeAngle_zero : normalizeAngle 0 = 0 := by
  rw [normalizeAngle_eq_emod]
  exact emod_eq_self 0 _ le_rfl (by positivity)

/-! ## Claim C7: relative-coordinate round trip -/

/-- C7: for every integer `dx` in `[-128, 127]`, decoding the byte produced by
the relative-coordinate encoder returns `dx`, i.e.
`read_relative_coord ∘ write_relative_coord` is the identity on `[-128, 127]`. -/
theorem C7_relative_coord_roundtrip (dx : Int) (h1 : -128 ≤ dx) (h2 : dx ≤ 127) :
    readRelativeCoord (writeRelativeCoord dx) = dx := by
  unfold readRelativeCoord writeRelativeCoord
  omega

/-- Witness for C7 at the concrete input `dx = -57`. -/
theorem C7_relative_coord_roundtrip_witness :
    (-128 : Int) ≤ -57 ∧ (-57 : Int) ≤ 127 ∧
      readRelativeCoord (writeRelativeCoord (-57)) = -57 :=
  ⟨by decide, by decide, C7_relative_coord_roundtrip (-57) (by decide) (by decide)⟩

/-! ## Claim C10: 24-byte messages are parsed as inert Unknown packets -/

/-- C10: every incoming message of exactly 24 bytes is parsed as
`Ok(Unknown(cmd, rest))` regardless of the command byte, so in particular a
24-byte message beginning with `'c'` or `'s'` never produces `StartLogin`,
`Login`, or `SetIdentity`. -/
theorem C10_len24_messages_inert (cmd : Nat) (rest : List Nat)
    (h : rest.length = 23) :
    parseIncomingPacket (cmd :: rest) = .ok (.unknown cmd rest) := by
  simp [parseIncomingPacket, h]

/-- Witness for C10 at a concrete 24-byte message beginning with `'c'` (99). -/
theorem C10_len24_messages_inert_witness :
    (List.replicate 23 0).length = 23 ∧
      parseIncomingPacket (99 :: List.replicate 23 0) =
        .ok (.unknown 99 (List.replicate 23 0)) :=
  ⟨by decide, C10_len24_messages_inert 99 (List.replicate 23 0) (by decide)⟩

/-! ## Claim C3: SetFullness wire encoding -/

/-- C3 counterexample: for snake id 1 with fullness 200, the emitted
`SetFullness` packet is `'h', 0, 1, 255, 255, 255` — the handler encodes
`fullness / 100` (clamped), not `fullness / 16777215` as the claim states,
which would give the bytes `'h', 0, 1, 0, 0, 200`. -/
theorem C3_setfullness_counterexample :
    emitSetFullness 1 200 = [104, 0, 1, 255, 255, 255] ∧
    emitSetFullness 1 200 ≠
      104 :: (be16 1 ++ be24 (fp24Encode ((200 : ℚ) / 16777215))) := by
  have he : fp24Encode (((200 : ℕ) : ℚ) / 100) = 16777215 := by
    have h200 : ((200 : ℕ) : ℚ) / 100 = 2 := by norm_num
    simp only [fp24Encode, h200]
    rw [if_neg (by norm_num : ¬ (2 : ℚ) < 0), if_pos (by norm_num : (1 : ℚ) < 2)]
    norm_num
  have he2 : fp24Encode ((200 : ℚ) / 16777215) = 200 := by
    simp only [fp24Encode]
    rw [if_neg (by norm_num : ¬ (200 : ℚ) / 16777215 < 0),
      if_neg (by norm_num : ¬ (1 : ℚ) < (200 : ℚ) / 16777215)]
    have h : (200 : ℚ) / 16777215 * 16777215 = 200 := by norm_num
    rw [h]
    norm_num
  constructor
  · simp only [emitSetFullness, packetSetFullnessBytes, be16, be24, he]
    decide
  · simp only [emitSetFullness, packetSetFullnessBytes, be16, be24, he, he2]
    decide

/-- C3 amended: the `SetFullness` packet consists of the command byte `'h'`
(104), the snake id as big-endian `u16`, and the snake's integer fullness
divided by `100`, clamped to `[0, 1]`, as a 24-bit fp24 value — explicitly,
the 24-bit payload is `16777215` once fullness reaches 100, and
`⌊16777215·fullness/100⌋` below that. -/
theorem C3_setfullness_bytes (id f : Nat) (hid : id < 65536) :
    emitSetFullness id f =
      [104, id / 256, id % 256,
        (if 100 ≤ f then 16777215 else 16777215 * f / 100) / 65536,
        (if 100 ≤ f then 16777215 else 16777215 * f / 100) / 256 % 256,
        (if 100 ≤ f then 16777215 else 16777215 * f / 100) % 256] := by
  have hfp : fp24Encode ((f : ℚ) / 100) =
      if 100 ≤ f then 16777215 else 16777215 * f / 100 := by
    unfold fp24Encode
    have hv0 : ¬ ((f : ℚ) / 100 < 0) := not_lt.mpr (by positivity)
    rw [if_neg hv0]
    by_cases h100 : 100 ≤ f
    · rw [if_pos h100]
      by_cases h1 : 1 < (f : ℚ) / 100
      · rw [if_pos h1]
        norm_num
      · have hle : (f : ℚ) ≤ 100 := (div_le_one (by norm_num)).mp (not_lt.mp h1)
        have hf100 : f = 100 := by
          have : f ≤ 100 := by exact_mod_cast hle
          omega
        subst hf100
        norm_num
    · rw [if_neg h100]
      have hv1 : ¬ (1 < (f : ℚ) / 100) := by
        rw [not_lt, div_le_one (by norm_num)]
        exact_mod_cast (by omega : f ≤ 100)
      rw [if_neg hv1]
      have hcast : (f : ℚ) / 100 * 16777215 = ((16777215 * f : ℕ) : ℚ) / ((100 : ℕ) : ℚ) := by
        push_cast
        ring
      rw [hcast, Nat.floor_div_nat, Nat.floor_natCast]
  have hw : (if 100 ≤ f then 16777215 else 16777215 * f / 100) ≤ 16777215 := by
    by_cases h : 100 ≤ f
    · simp [h]
    · simp only [if_neg h]
      have h99 : f ≤ 99 := by omega
      calc 16777215 * f / 100 ≤ 16777215 * 99 / 100 :=
            Nat.div_le_div_right (Nat.mul_le_mul_left _ h99)
        _ ≤ 16777215 := by norm_num
  unfold emitSetFullness packetSetFullnessBytes be16 be24
  rw [hfp]
  have h1 : id / 256 % 256 = id / 256 := Nat.mod_eq_of_lt (by omega)
  have h2 : (if 100 ≤ f then 16777215 else 16777215 * f / 100) / 65536 % 256 =
      (if 100 ≤ f then 16777215 else 16777215 * f / 100) / 65536 :=
    Nat.mod_eq_of_lt (by omega)
  rw [h1, h2]
  simp

/-- Witness for C3 at id 1 and fullness 50 (below saturation):
`⌊16777215·50/100⌋ = 8388607 = 0x7FFFFF`. -/
theorem C3_setfullness_bytes_witness :
    (1 : Nat) < 65536 ∧ emitSetFullness 1 50 = [104, 0, 1, 127, 255, 255] := by
  refine ⟨by decide, ?_⟩
  rw [C3_setfullness_bytes 1 50 (by decide)]
  decide

/-! ## Claim C9: the LCG and the range of next_f32 -/

/-- Fuel-indexed bound on the floor logarithm: values below `2^(f+1)` have
`log2Fuel (f+1)` at most `f`. -/
theorem log2Fuel_le (f : Nat) : ∀ n : Nat, n < 2 ^ (f + 1) → log2Fuel (f + 1) n ≤ f := by
  induction f with
  | zero =>
    intro n hn
    have h2 : n < 2 := by simpa using hn
    simp [log2Fuel, h2]
  | succ f ih =>
    intro n hn
    by_cases h2 : n < 2
    · simp [log2Fuel, h2]
    · have hdiv : n / 2 < 2 ^ (f + 1) := by
        have hp : 2 ^ (f + 1 + 1) = 2 * 2 ^ (f + 1) := by ring
        omega
      simp only [log2Fuel, if_neg h2]
      exact Nat.succ_le_succ (ih (n / 2) hdiv)

/-- The `f32` conversion of a `u64` value never exceeds `2^64`. -/
theorem u64ToF32_le (v : Nat) (hv : v < 2 ^ 64) : u64ToF32 v ≤ 2 ^ 64 := by
  unfold u64ToF32
  by_cases hsmall : v < 2 ^ 24
  · rw [if_pos hsmall]
    calc v ≤ 2 ^ 24 := hsmall.le
      _ ≤ 2 ^ 64 := Nat.pow_le_pow_right (by norm_num) (by norm_num)
  · rw [if_neg hsmall]
    have he : log2Fuel 64 v ≤ 63 := log2Fuel_le 63 v hv
    set k := log2Fuel 64 v - 23 with hk
    have hkle : k ≤ 64 := by omega
    have hdvd : 2 ^ k ∣ 2 ^ 64 := pow_dvd_pow 2 hkle
    have hqbound : (v / 2 ^ k + 1) * 2 ^ k ≤ 2 ^ 64 := by
      have hlt : v / 2 ^ k < 2 ^ 64 / 2 ^ k :=
        Nat.div_lt_div_of_lt_of_dvd hdvd hv
      have : (v / 2 ^ k + 1) ≤ 2 ^ 64 / 2 ^ k := hlt
      calc (v / 2 ^ k + 1) * 2 ^ k ≤ 2 ^ 64 / 2 ^ k * 2 ^ k :=
            Nat.mul_le_mul_right _ this
        _ = 2 ^ 64 := Nat.div_mul_cancel hdvd
    have hqle : v / 2 ^ k * 2 ^ k ≤ 2 ^ 64 :=
      le_trans (Nat.div_mul_le_self v _) hv.le
    split
    · exact hqle
    · split
      · exact hqbound
      · split
        · exact hqle
        · exact hqbound

/-- C9 counterexample: from the state `9137839865990459062`, `next_u64` yields
`2^64 - 1`, whose `f32` conversion rounds up to `2^64`; `next_f32` therefore
returns exactly `1`, which is not in the half-open interval `[0, 1)` the claim
states. -/
theorem C9_next_f32_counterexample :
    (rngNextF32 ⟨9137839865990459062⟩).1 = 1 ∧
    ¬ ((rngNextF32 ⟨9137839865990459062⟩).1 < 1) := by
  have hmod : (9137839865990459062 * 6364136223846793005 + 1) % 2 ^ 64 = 2 ^ 64 - 1 := by
    decide
  have hconv : u64ToF32 (2 ^ 64 - 1) = 2 ^ 64 := by decide
  have hone : (rngNextF32 ⟨9137839865990459062⟩).1 = 1 := by
    simp only [rngNextF32, rngNextU64, hmod, hconv]
    norm_num
  exact ⟨hone, by rw [hone]; exact lt_irrefl 1⟩

/-- C9 amended: for every RNG state, `next_u64` replaces the state by
`state · 6364136223846793005 + 1` modulo `2^64` and returns the new state, and
for every state the value returned by `next_f32` lies in the closed interval
`[0, 1]` (the upper bound is attained, as the counterexample shows, because
`u64::MAX as f32` rounds large outputs up to `2^64`). -/
theorem C9_rng_next_spec (r : SimpleRng) :
    (rngNextU64 r).2.state = (r.state * 6364136223846793005 + 1) % 2 ^ 64 ∧
    (rngNextU64 r).1 = (rngNextU64 r).2.state ∧
    0 ≤ (rngNextF32 r).1 ∧ (rngNextF32 r).1 ≤ 1 := by
  refine ⟨rfl, rfl, ?_, ?_⟩
  · simp only [rngNextF32, rngNextU64]
    positivity
  · simp only [rngNextF32, rngNextU64]
    have hconv : u64ToF32 (2 ^ 64 - 1) = 2 ^ 64 := by decide
    rw [hconv]
    rw [div_le_one (by positivity)]
    have hb : u64ToF32 ((r.state * 6364136223846793005 + 1) % 2 ^ 64) ≤ 2 ^ 64 :=
      u64ToF32_le _ (Nat.mod_lt _ (by positivity))
    exact_mod_cast hb


/-! ## Claim C6: stacked-packet framing round trip -/

/-- Fuel irrelevance for the stacked-packet parsing loop: any fuel at least
the input length gives the same result. -/
theorem parseStackedFuel_congr :
    ∀ (fuel fuel' : Nat) (data : List Nat), data.length ≤ fuel → data.length ≤ fuel' →
      parseStackedFuel fuel data = parseStackedFuel fuel' data := by
  intro fuel
  induction fuel with
  | zero =>
    intro fuel' data h h'
    match data, h with
    | [], _ =>
      cases fuel' <;> rfl
  | succ fuel ih =>
    intro fuel' data h h'
    match data, fuel', h' with
    | [], 0, _ => rfl
    | [], f' + 1, _ => rfl
    | b0 :: rest, f' + 1, h' =>
      simp only [parseStackedFuel]
      by_cases hb : b0 < 32
      · rw [if_pos hb, if_pos hb]
        cases rest with
        | nil => rfl
        | cons b1 rest2 =>
          dsimp only
          by_cases hlen : b0 * 256 + b1 ≤ rest2.length
          · rw [if_pos hlen, if_pos hlen]
            simp only [List.length_cons] at h h'
            have := ih f' (rest2.drop (b0 * 256 + b1)) (by simp [List.length_drop]; omega)
              (by simp [List.length_drop]; omega)
            rw [this]
          · rw [if_neg hlen, if_neg hlen]
      · rw [if_neg hb, if_neg hb]
        by_cases hlen : b0 - 32 ≤ rest.length
        · rw [if_pos hlen, if_pos hlen]
          simp only [List.length_cons] at h h'
          have := ih f' (rest.drop (b0 - 32)) (by simp [List.length_drop]; omega)
            (by simp [List.length_drop]; omega)
          rw [this]
        · rw [if_neg hlen, if_neg hlen]

/-- Parsing a correctly framed sub-packet (of length below 8192) followed by
any tail yields the sub-packet and continues on the tail. -/
theorem parseStackedGo_frame (p t : List Nat) (hp : p.length < 8192) :
    parseStackedGo (frameSubPacket p ++ t) = p :: parseStackedGo t := by
  unfold parseStackedGo
  by_cases hle : p.length ≤ 223
  · have hfr : frameSubPacket p ++ t = (p.length + 32) :: (p ++ t) := by
      unfold frameSubPacket
      rw [if_pos hle, List.cons_append]
    rw [hfr]
    have hlen : ((p.length + 32) :: (p ++ t)).length = (p ++ t).length + 1 := rfl
    rw [hlen]
    simp only [parseStackedFuel]
    rw [if_neg (by omega : ¬ p.length + 32 < 32)]
    have h32 : p.length + 32 - 32 = p.length := by omega
    rw [h32, if_pos (by rw [List.length_append]; omega)]
    rw [List.take_left, List.drop_left]
    congr 1
    exact parseStackedFuel_congr _ _ t (by rw [List.length_append]; omega) le_rfl
  · have hfr : frameSubPacket p ++ t =
        p.length / 256 :: p.length % 256 :: (p ++ t) := by
      unfold frameSubPacket
      rw [if_neg hle]
      simp [List.cons_append]
    rw [hfr]
    have hlen : (p.length / 256 :: p.length % 256 :: (p ++ t)).length =
        ((p ++ t).length + 1) + 1 := rfl
    rw [hlen]
    simp only [parseStackedFuel]
    rw [if_pos (by omega : p.length / 256 < 32)]
    have hrec : p.length / 256 * 256 + p.length % 256 = p.length := by omega
    rw [hrec, if_pos (by rw [List.length_append]; omega)]
    rw [List.take_left, List.drop_left]
    congr 1
    exact parseStackedFuel_congr _ _ t (by rw [List.length_append]; omega) le_rfl

/-- C6: for every finite sequence of sub-packets, each framed per section 4.2
(one-byte prefix `len + 32` when `len ≤ 223`, otherwise a two-byte big-endian
prefix whose first byte is `< 32`, for `len < 8192`), `parse_stacked_packets`
applied at offset 0 to the concatenation of the frames returns exactly the
original list of sub-packets. -/
theorem C6_stacked_roundtrip (ps : List (List Nat))
    (h : ∀ p ∈ ps, p.length < 8192) :
    parseStackedPackets (ps.map frameSubPacket).flatten 0 = ps := by
  unfold parseStackedPackets
  rw [List.drop_zero]
  induction ps with
  | nil =>
    rw [List.map_nil, List.flatten_nil]
    rfl
  | cons p ps ih =>
    rw [List.map_cons, List.flatten_cons,
      parseStackedGo_frame p _ (h p (List.mem_cons_self p ps)),
      ih fun q hq => h q (List.mem_cons_of_mem p hq)]

/-- Witness for C6 at a concrete packet sequence (an empty sub-packet, a short
one, and one of length 300 that takes the two-byte prefix). -/
theorem C6_stacked_roundtrip_witness :
    (∀ p ∈ [[], [7, 8, 9], List.replicate 300 1], p.length < 8192) ∧
      parseStackedPackets
        (([[], [7, 8, 9], List.replicate 300 1].map frameSubPacket)).flatten 0 =
        [[], [7, 8, 9], List.replicate 300 1] :=
  ⟨by decide, C6_stacked_roundtrip [[], [7, 8, 9], List.replicate 300 1] (by decide)⟩

/-! ## Claim C5: food removal by query position -/

/-- The swap-remove of an in-bounds index is a permutation of erasing that
index. -/
theorem swapRemove_perm {α : Type} (l : List α) (j : Nat) (hj : j < l.length) :
    (swapRemove l j).Perm (l.eraseIdx j) := by
  have hne : l ≠ [] := by
    intro h
    subst h
    simp at hj
  unfold swapRemove
  rw [List.getLast?_eq_getLast l hne]
  dsimp only
  rw [List.set_eq_take_append_cons_drop, if_pos hj, List.eraseIdx_eq_take_drop_succ]
  by_cases hlast : j + 1 < l.length
  · have hd : l.drop (j + 1) ≠ [] := by
      apply List.ne_nil_of_length_pos
      rw [List.length_drop]
      omega
    rw [List.dropLast_append_of_ne_nil _ (List.cons_ne_nil _ _),
      List.dropLast_cons_of_ne_nil hd]
    refine List.Perm.append_left _ ?_
    conv_rhs => rw [← List.dropLast_concat_getLast hd, List.getLast_drop hd]
    exact (List.perm_append_singleton _ _).symm
  · have hj1 : j + 1 = l.length := by omega
    rw [hj1, List.drop_length, List.dropLast_concat, List.append_nil]

/-- The removal loop returns `none` exactly when no food of the scanned
suffix lies within the tolerance. -/
theorem removeAtPositionGo_none_iff (all : List Food) (x y tolSq : Nat) :
    ∀ (rest : List Food) (i : Nat),
      removeAtPositionGo all x y tolSq rest i = none ↔
        ∀ f ∈ rest, ¬ foodDistSq f x y ≤ tolSq := by
  intro rest
  induction rest with
  | nil =>
    intro i
    simp [removeAtPositionGo]
  | cons f rest ih =>
    intro i
    simp only [removeAtPositionGo]
    by_cases h : foodDistSq f x y ≤ tolSq
    · rw [if_pos h]
      simp [h]
    · rw [if_neg h]
      rw [ih (i + 1)]
      simp only [List.forall_mem_cons]
      constructor
      · intro hr
        exact ⟨h, hr⟩
      · intro hr
        exact hr.2

/-- When the removal loop returns a food, it is the first of the scanned
suffix within tolerance, and the updated list is a swap-remove at its index. -/
theorem removeAtPositionGo_some (all : List Food) (x y tolSq : Nat) :
    ∀ (rest : List Food) (i : Nat) (res : Food × List Food),
      removeAtPositionGo all x y tolSq rest i = some res →
        rest.find? (fun g => decide (foodDistSq g x y ≤ tolSq)) = some res.1 ∧
        ∃ j, i ≤ j ∧ j < i + rest.length ∧ res.2 = swapRemove all j ∧
          rest[j - i]? = some res.1 := by
  intro rest
  induction rest with
  | nil =>
    intro i res h
    simp [removeAtPositionGo] at h
  | cons f rest ih =>
    intro i res h
    simp only [removeAtPositionGo] at h
    by_cases hf : foodDistSq f x y ≤ tolSq
    · rw [if_pos hf] at h
      have hres : res = (f, swapRemove all i) := by
        exact Option.some.inj h.symm ▸ rfl
      subst hres
      refine ⟨by simp [List.find?, hf], i, le_rfl, by simp, rfl, by simp⟩
    · rw [if_neg hf] at h
      obtain ⟨hfind, j, hij, hjlt, hswap, hget⟩ := ih (i + 1) res h
      refine ⟨by simp [List.find?, hf, hfind], j, by omega, by simp; omega, hswap, ?_⟩
      have hji : j - i = (j - (i + 1)) + 1 := by omega
      rw [hji]
      simpa using hget

/-- C5 counterexample: with the stored foods `[(108,100), (101,100)]`, a query
at `(100,100)` with the default tolerance 10 removes and returns the food at
distance 8 — the first within tolerance in storage order — even though the
food at distance 1 is strictly nearer, refuting the claim that the nearest
food is removed. -/
theorem C5_remove_food_counterexample :
    removeAtPosition [⟨108, 100, 5, 0⟩, ⟨101, 100, 5, 0⟩] 100 100 10 =
      some (⟨108, 100, 5, 0⟩, [⟨101, 100, 5, 0⟩]) ∧
    foodDistSq ⟨101, 100, 5, 0⟩ 100 100 < foodDistSq ⟨108, 100, 5, 0⟩ 100 100 ∧
    foodDistSq ⟨101, 100, 5, 0⟩ 100 100 ≤ 10 * 10 := by
  refine ⟨by decide, by decide, by decide⟩

/-- C5 amended: removal returns `none` exactly when no stored food lies within
the tolerance; otherwise it removes and returns the FIRST food in storage
order whose (wrapped) squared distance to the query is at most `tolerance²` —
not necessarily the nearest — and the remaining collection is a permutation of
the other stored foods (`swap_remove` moves the last food into the vacated
slot, so contents are preserved while order may change). -/
theorem C5_remove_food_spec (foods : List Food) (x y tol : Nat) :
    (removeAtPosition foods x y tol = none ↔
      ∀ f ∈ foods, ¬ foodDistSq f x y ≤ tol * tol) ∧
    (∀ f rest, removeAtPosition foods x y tol = some (f, rest) →
      foods.find? (fun g => decide (foodDistSq g x y ≤ tol * tol)) = some f ∧
      (f :: rest).Perm foods) := by
  constructor
  · exact removeAtPositionGo_none_iff foods x y _ foods 0
  · intro f rest h
    obtain ⟨hfind, j, hij, hjlt, hswap, hget⟩ :=
      removeAtPositionGo_some foods x y _ foods 0 (f, rest) h
    dsimp only at hfind hswap hget
    refine ⟨hfind, ?_⟩
    have hjl : j < foods.length := by omega
    have hgf : foods[j] = f := by
      rw [Nat.sub_zero, List.getElem?_eq_getElem hjl] at hget
      exact Option.some.inj hget
    have hdecomp : foods = foods.take j ++ f :: foods.drop (j + 1) := by
      conv_lhs => rw [← List.take_append_drop j foods]
      rw [← List.getElem_cons_drop foods j hjl, hgf]
    have hperm1 : (rest : List Food).Perm (foods.eraseIdx j) := by
      rw [hswap]
      exact swapRemove_perm foods j hjl
    have h1 : (f :: rest).Perm (f :: (foods.take j ++ foods.drop (j + 1))) := by
      rw [← List.eraseIdx_eq_take_drop_succ]
      exact hperm1.cons f
    have h2 : (f :: (foods.take j ++ foods.drop (j + 1))).Perm foods := by
      conv_rhs => rw [hdecomp]
      exact List.perm_middle.symm
    exact h1.trans h2

/-- Witness for C5 at the two-food collection of the counterexample: the
`some` branch of the specification applied to the concrete removal. -/
theorem C5_remove_food_spec_witness :
    List.find? (fun g => decide (foodDistSq g 100 100 ≤ 10 * 10))
        [⟨108, 100, 5, 0⟩, ⟨101, 100, 5, 0⟩] = some ⟨108, 100, 5, 0⟩ ∧
    ((⟨108, 100, 5, 0⟩ : Food) :: [⟨101, 100, 5, 0⟩]).Perm
      [⟨108, 100, 5, 0⟩, ⟨101, 100, 5, 0⟩] :=
  (C5_remove_food_spec [⟨108, 100, 5, 0⟩, ⟨101, 100, 5, 0⟩] 100 100 10).2
    ⟨108, 100, 5, 0⟩ [⟨101, 100, 5, 0⟩] (by decide)

/-! ## Claim C1: growth after eating -/

/-- C1 counterexample: a snake with 10 body parts and fullness 180 eats a food
of size 14 (value 28); fullness becomes 208, so the claimed target
`min(⌊208/100⌋, 500) + 10 = 12` exceeds the resulting body length 11 —
`eat_food` appends at most one part (an `if`, not a `while`). -/
theorem C1_eat_food_counterexample :
    (eatFood { snakeBase with
        body := List.replicate 10 ((0 : ℝ), (0 : ℝ)), fullness := 180 }
      ⟨0, 0, 14, 0⟩).fullness = 208 ∧
    (eatFood { snakeBase with
        body := List.replicate 10 ((0 : ℝ), (0 : ℝ)), fullness := 180 }
      ⟨0, 0, 14, 0⟩).body.length = 11 ∧
    ¬ (min (208 / 100) 500 + 10 ≤ 11) := by
  refine ⟨?_, ?_, by decide⟩
  · rfl
  · simp only [eatFood, tryGrow, Food.value, List.length_replicate]
    rw [if_pos (by norm_num : (10 : ℕ) < min ((180 + 14 * 2) % 2 ^ 32 / 100) 500 + 10)]
    rw [show (List.replicate 10 ((0 : ℝ), (0 : ℝ))).getLast? = some ((0 : ℝ), (0 : ℝ)) from rfl]
    simp

/-- C1 amended: eating a food of value `v = 2·size` increases fullness by
exactly `v` (modulo the `u32` accumulator width), records the food, sets the
fullness change bit, and then appends AT MOST ONE new tail part duplicating
the current tail's position — exactly when `body.length` is below
`min(⌊fullness/100⌋, 500) + 10` (and the body is nonempty); the body length
therefore need not reach that bound after `eat_food` when the deficit exceeds
one part.  All other snake attributes are unchanged. -/
theorem C1_eat_food_spec (s : Snake) (food : Food) :
    (eatFood s food).fullness = (s.fullness + 2 * food.size) % 2 ^ 32 ∧
    (eatFood s food).body =
      (if s.body.length <
          min ((s.fullness + 2 * food.size) % 2 ^ 32 / 100) 500 + 10 then
        (match s.body.getLast? with
          | some tail => s.body ++ [tail]
          | none => s.body)
      else s.body) ∧
    (eatFood s food).body.length ≤ s.body.length + 1 ∧
    (eatFood s food).foodsEaten = s.foodsEaten ++ [food] ∧
    (eatFood s food).changes = s.changes ||| 16 ∧
    (eatFood s food).angle = s.angle ∧
    (eatFood s food).targetAngle = s.targetAngle ∧
    (eatFood s food).speed = s.speed ∧
    (eatFood s food).accelerating = s.accelerating ∧
    (eatFood s food).dying = s.dying ∧
    (eatFood s food).dead = s.dead ∧
    (eatFood s food).kills = s.kills := by
  have hv : food.value = 2 * food.size := by
    unfold Food.value
    ring
  unfold eatFood tryGrow
  rw [hv]
  dsimp only
  split
  · split
    · refine ⟨rfl, rfl, ?_, rfl, rfl, rfl, rfl, rfl, rfl, rfl, rfl, rfl⟩
      simp
    · exact ⟨rfl, rfl, by simp, rfl, rfl, rfl, rfl, rfl, rfl, rfl, rfl, rfl⟩
  · exact ⟨rfl, rfl, by simp, rfl, rfl, rfl, rfl, rfl, rfl, rfl, rfl, rfl⟩

/-! ## Claim C2: rotation packet handling -/

/-- C2 counterexample: a snake with heading 0 and previous target angle `π`
receives a counter-clockwise rotation packet of intensity 0.  The claim
predicts the new target `π + π·(0/127)·0.1 = π`, but the handler computes the
new target from the CURRENT heading (`snake.angle`), giving
`normalize(0 + 0) = 0 ≠ π`. -/
theorem C2_rotation_counterexample :
    (handleRotation { snakeBase with angle := 0, targetAngle := Real.pi }
        0 false false).targetAngle ≠
      Real.pi + Real.pi * ((rotationIntensity 0 false false : ℝ) / 127) * 0.1 := by
  have hccw : rotationIsClockwise 0 false false = false := by decide
  have hint : rotationIntensity 0 false false = 0 := by decide
  have harg : (0 : ℝ) + (Real.pi * ((0 : ℕ) : ℝ) / 127) * 0.1 = 0 := by
    norm_num
  unfold handleRotation setTargetAngle
  rw [hccw, hint]
  simp only [Bool.false_eq_true, if_false]
  have harg2 : ({ snakeBase with angle := 0, targetAngle := Real.pi } : Snake).angle +
      Real.pi * (((0 : ℕ) : ℝ) / 127) * 0.1 = 0 := by
    show (0 : ℝ) + Real.pi * (((0 : ℕ) : ℝ) / 127) * 0.1 = 0
    norm_num
  rw [harg2, normalizeAngle_zero]
  have hcond : (0.001 : ℝ) <
      |0 - ({ snakeBase with angle := 0, targetAngle := Real.pi } : Snake).targetAngle| := by
    show (0.001 : ℝ) < |0 - Real.pi|
    rw [zero_sub, abs_neg, abs_of_pos Real.pi_pos]
    linarith [Real.pi_gt_three]
  rw [if_pos hcond]
  show (0 : ℝ) ≠ Real.pi + Real.pi * (((0 : ℕ) : ℝ) / 127) * 0.1
  norm_num
  exact Ne.symm Real.pi_ne_zero

/-- C2 amended: handling a Rotation packet for the session's snake computes
`delta = ±π·(intensity/127)` (negative exactly when the packet is clockwise)
and sets the target angle to `normalize_angle(angle + delta·0.1)` — based on
the snake's CURRENT heading, not its previous target — but only when the
normalized value differs from the previous target by more than `0.001`
(otherwise the snake is unchanged); the target-heading change flag (WANGLE,
bit `0x04`) is set exactly when the update happens, and no other snake
attribute changes. -/
theorem C2_rotation_spec (s : Snake) (value : Nat) (ll lr : Bool) :
    (handleRotation s value ll lr).targetAngle =
      (if 0.001 < |normalizeAngle (s.angle +
          (if rotationIsClockwise value ll lr then (-1 : ℝ) else 1) *
            (Real.pi * ((rotationIntensity value ll lr : ℝ) / 127)) * (1 / 10)) -
          s.targetAngle| then
        normalizeAngle (s.angle +
          (if rotationIsClockwise value ll lr then (-1 : ℝ) else 1) *
            (Real.pi * ((rotationIntensity value ll lr : ℝ) / 127)) * (1 / 10))
      else s.targetAngle) ∧
    (handleRotation s value ll lr).changes =
      (if 0.001 < |normalizeAngle (s.angle +
          (if rotationIsClockwise value ll lr then (-1 : ℝ) else 1) *
            (Real.pi * ((rotationIntensity value ll lr : ℝ) / 127)) * (1 / 10)) -
          s.targetAngle| then s.changes ||| 4 else s.changes) ∧
    (handleRotation s value ll lr).angle = s.angle ∧
    (handleRotation s value ll lr).speed = s.speed ∧
    (handleRotation s value ll lr).fullness = s.fullness ∧
    (handleRotation s value ll lr).body = s.body ∧
    (handleRotation s value ll lr).accelerating = s.accelerating ∧
    (handleRotation s value ll lr).dying = s.dying ∧
    (handleRotation s value ll lr).dead = s.dead ∧
    (handleRotation s value ll lr).foodsEaten = s.foodsEaten ∧
    (handleRotation s value ll lr).kills = s.kills ∧
    (handleRotation s value ll lr).prevHead = s.prevHead := by
  have harg : s.angle +
      (if rotationIsClockwise value ll lr then
        -(Real.pi * ((rotationIntensity value ll lr : ℝ) / 127))
      else Real.pi * ((rotationIntensity value ll lr : ℝ) / 127)) * 0.1 =
    s.angle +
      (if rotationIsClockwise value ll lr then (-1 : ℝ) else 1) *
        (Real.pi * ((rotationIntensity value ll lr : ℝ) / 127)) * (1 / 10) := by
    cases rotationIsClockwise value ll lr
    · norm_num
    · norm_num
  unfold handleRotation setTargetAngle
  rw [harg]
  by_cases hc : (0.001 : ℝ) < |normalizeAngle (s.angle +
      (if rotationIsClockwise value ll lr then (-1 : ℝ) else 1) *
        (Real.pi * ((rotationIntensity value ll lr : ℝ) / 127)) * (1 / 10)) - s.targetAngle|
  · simp only [if_pos hc]
    simp
  · simp only [if_neg hc]
    simp

/-! ## Claim C4: rotation packet command-byte selection -/

/-- C4 counterexample: with heading 0 and target `3π/2`, the dispatched
clockwise flag is true (`rem_euclid(3π/2, 2π) = 3π/2 > π`), yet
`angle_difference(0, 3π/2) = -π/2` is not greater than `π` — the claimed
equivalence `CW ↔ angle_difference(angle, target) > π` fails because
`angle_difference` always lies in `(-π, π]`. -/
theorem C4_clockwise_counterexample :
    isClockwiseAngles 0 (3 * Real.pi / 2) ∧
    ¬ (Real.pi < angleDifference 0 (3 * Real.pi / 2)) := by
  have h2pi : (0 : ℝ) < 2 * Real.pi := by positivity
  have hval : remEuclid (3 * Real.pi / 2 - 0) (2 * Real.pi) = 3 * Real.pi / 2 := by
    rw [sub_zero, remEuclid_eq_emod _ _ h2pi]
    exact emod_eq_self _ _ (by positivity) (by linarith [Real.pi_pos])
  have hnorm : normalizeAngle (3 * Real.pi / 2 - 0) = 3 * Real.pi / 2 := by
    rw [sub_zero, normalizeAngle_eq_emod]
    exact emod_eq_self _ _ (by positivity) (by linarith [Real.pi_pos])
  constructor
  · unfold isClockwiseAngles
    rw [hval]
    linarith [Real.pi_pos]
  · unfold angleDifference
    rw [hnorm, if_pos (by linarith [Real.pi_pos])]
    intro hcontra
    nlinarith [Real.pi_pos]

/-- C4 amended: the serializer's command byte follows the section 4.5 table —
`'4'` for clockwise with angle, `'5'` for clockwise without angle, `'e'` for
counter-clockwise with angle and target, `'3'` for counter-clockwise with
angle only, `'E'` for counter-clockwise without angle — and the clockwise
flag computed for a dispatched snake is true exactly when
`angle_difference(angle, target)` is NEGATIVE (equivalently, when the
normalized difference `rem_euclid(target − angle, 2π)` exceeds `π`), not when
`angle_difference` exceeds `π`. -/
theorem C4_rotation_dispatch_spec (p : PacketRotation) :
    (packetRotationBytes p).head? =
      some (rotationCommandByte p.clockwise p.includeAngle p.includeTarget) ∧
    (∀ it, rotationCommandByte true true it = 52) ∧
    (∀ it, rotationCommandByte true false it = 53) ∧
    rotationCommandByte false true true = 101 ∧
    rotationCommandByte false true false = 51 ∧
    (∀ it, rotationCommandByte false false it = 69) ∧
    (∀ a t : ℝ, isClockwiseAngles a t ↔ angleDifference a t < 0) := by
  refine ⟨rfl, by decide, by decide, by decide, by decide, by decide, ?_⟩
  intro a t
  have h2pi : (0 : ℝ) < 2 * Real.pi := by positivity
  unfold isClockwiseAngles angleDifference
  rw [remEuclid_eq_emod _ _ h2pi, normalizeAngle_eq_emod]
  have hnn : 0 ≤ emod (t - a) (2 * Real.pi) := emod_nonneg _ _ h2pi
  have hlt : emod (t - a) (2 * Real.pi) < 2 * Real.pi := emod_lt _ _ h2pi
  constructor
  · intro h
    rw [if_pos h]
    linarith
  · intro h
    by_cases hcase : Real.pi < emod (t - a) (2 * Real.pi)
    · exact hcase
    · rw [if_neg hcase] at h
      linarith

/-! ## Claim C8: grid cell membership invariant -/

theorem worldToSector_lt (p : ℚ × ℚ) :
    (worldToSector p).1 < 90 ∧ (worldToSector p).2 < 90 := by
  unfold worldToSector
  constructor
  · have h1 : min (max ⌊p.1 / 480⌋ 0) 89 ≤ 89 := min_le_right _ _
    have := Int.toNat_le_toNat h1
    norm_num at this
    omega
  · have h1 : min (max ⌊p.2 / 480⌋ 0) 89 ≤ 89 := min_le_right _ _
    have := Int.toNat_le_toNat h1
    norm_num at this
    omega

theorem gridAddSnake_eq (g : Nat × Nat → Finset Nat) (id : Nat) (p : ℚ × ℚ) :
    gridAddSnake g id p =
      fun c2 => if c2 = worldToSector p then insert id (g c2) else g c2 := by
  unfold gridAddSnake
  rw [if_pos ⟨(worldToSector_lt p).1, (worldToSector_lt p).2⟩]

theorem gridRemoveSnake_eq (g : Nat × Nat → Finset Nat) (id : Nat) (p : ℚ × ℚ) :
    gridRemoveSnake g id p =
      fun c2 => if c2 = worldToSector p then (g c2).erase id else g c2 := by
  unfold gridRemoveSnake
  rw [if_pos ⟨(worldToSector_lt p).1, (worldToSector_lt p).2⟩]

theorem mem_gridAddSnake (g : Nat × Nat → Finset Nat) (id : Nat) (p : ℚ × ℚ)
    (id2 : Nat) (c : Nat × Nat) :
    id2 ∈ gridAddSnake g id p c ↔
      id2 ∈ g c ∨ (c = worldToSector p ∧ id2 = id) := by
  rw [gridAddSnake_eq]
  dsimp only
  by_cases hc : c = worldToSector p
  · rw [if_pos hc]
    simp [hc]
    tauto
  · rw [if_neg hc]
    simp [hc]

theorem mem_gridRemoveSnake (g : Nat × Nat → Finset Nat) (id : Nat) (p : ℚ × ℚ)
    (id2 : Nat) (c : Nat × Nat) :
    id2 ∈ gridRemoveSnake g id p c ↔
      id2 ∈ g c ∧ ¬ (c = worldToSector p ∧ id2 = id) := by
  rw [gridRemoveSnake_eq]
  dsimp only
  by_cases hc : c = worldToSector p
  · rw [if_pos hc]
    simp [hc, Finset.mem_erase]
    tauto
  · rw [if_neg hc]
    simp [hc]

theorem lookupPos_mem : ∀ (l : List (Nat × (ℚ × ℚ))) (id : Nat) (p : ℚ × ℚ),
    lookupPos l id = some p → (id, p) ∈ l := by
  intro l
  induction l with
  | nil =>
    intro id p h
    simp [lookupPos] at h
  | cons e rest ih =>
    intro id p h
    simp only [lookupPos] at h
    by_cases he : e.1 = id
    · rw [if_pos he] at h
      have : e = (id, p) := by
        obtain ⟨e1, e2⟩ := e
        simp at he h
        exact Prod.ext he h
      rw [← this]
      exact List.mem_cons_self e rest
    · rw [if_neg he] at h
      exact List.mem_cons_of_mem e (ih id p h)

theorem lookupPos_setPos_self : ∀ (l : List (Nat × (ℚ × ℚ))) (id : Nat) (p : ℚ × ℚ),
    lookupPos (setPos l id p) id = (lookupPos l id).map (fun _ => p) := by
  intro l
  induction l with
  | nil =>
    intro id p
    rfl
  | cons e rest ih =>
    intro id p
    simp only [setPos, List.map_cons]
    by_cases he : e.1 = id
    · rw [if_pos he]
      simp only [lookupPos]
      rw [if_pos he, if_pos he]
      rfl
    · rw [if_neg he]
      simp only [lookupPos]
      rw [if_neg he, if_neg he]
      exact ih id p

theorem lookupPos_setPos_ne : ∀ (l : List (Nat × (ℚ × ℚ))) (id id2 : Nat) (p : ℚ × ℚ),
    id2 ≠ id → lookupPos (setPos l id p) id2 = lookupPos l id2 := by
  intro l
  induction l with
  | nil =>
    intro id id2 p hne
    rfl
  | cons e rest ih =>
    intro id id2 p hne
    simp only [setPos, List.map_cons]
    by_cases he : e.1 = id
    · rw [if_pos he]
      simp only [lookupPos]
      have hne2 : ¬ (e.1 = id2) := by
        rw [he]
        exact fun h => hne h.symm
      rw [if_neg hne2, if_neg hne2]
      exact ih id id2 p hne
    · rw [if_neg he]
      simp only [lookupPos]
      by_cases he2 : e.1 = id2
      · rw [if_pos he2, if_pos he2]
      · rw [if_neg he2, if_neg he2]
        exact ih id id2 p hne

theorem lookupPos_filter_self : ∀ (l : List (Nat × (ℚ × ℚ))) (id : Nat),
    lookupPos (l.filter fun e => e.1 ≠ id) id = none := by
  intro l
  induction l with
  | nil =>
    intro id
    rfl
  | cons e rest ih =>
    intro id
    rw [List.filter_cons]
    by_cases he : e.1 = id
    · rw [if_neg (by simp [he])]
      exact ih id
    · rw [if_pos (by simp [he])]
      simp only [lookupPos, if_neg he]
      exact ih id

theorem lookupPos_filter_ne : ∀ (l : List (Nat × (ℚ × ℚ))) (id id2 : Nat),
    id2 ≠ id → lookupPos (l.filter fun e => e.1 ≠ id) id2 = lookupPos l id2 := by
  intro l
  induction l with
  | nil =>
    intro id id2 hne
    rfl
  | cons e rest ih =>
    intro id id2 hne
    rw [List.filter_cons]
    by_cases he : e.1 = id
    · rw [if_neg (by simp [he])]
      simp only [lookupPos]
      rw [if_neg (by rw [he]; exact fun h => hne h.symm)]
      exact ih id id2 hne
    · rw [if_pos (by simp [he])]
      simp only [lookupPos]
      by_cases he2 : e.1 = id2
      · rw [if_pos he2, if_pos he2]
      · rw [if_neg he2, if_neg he2]
        exact ih id id2 hne

/-- The inductive invariant behind claim C8: snake ids are below the fresh-id
counter, every id stored in a grid cell belongs to a mapped snake whose head
sector is that cell, and every mapped snake is registered in its head cell. -/
def InvW (w : WorldM) : Prop :=
  (∀ e ∈ w.snakes, e.1 < w.nextId) ∧
  (∀ id c, id ∈ w.grid c →
    ∃ p, lookupPos w.snakes id = some p ∧ c = worldToSector p) ∧
  (∀ id p, lookupPos w.snakes id = some p → id ∈ w.grid (worldToSector p))

theorem InvW_initial : InvW initialWorld := by
  refine ⟨?_, ?_, ?_⟩
  · intro e he
    simp [initialWorld] at he
  · intro id c h
    simp [initialWorld] at h
  · intro id p h
    simp [initialWorld, lookupPos] at h

theorem InvW_create (w : WorldM) (p : ℚ × ℚ) (hw : InvW w) :
    InvW (createSnakeW w p) := by
  obtain ⟨h1, h2, h3⟩ := hw
  have hfresh : lookupPos w.snakes w.nextId = none := by
    cases hl : lookupPos w.snakes w.nextId with
    | none => rfl
    | some q =>
      have := h1 _ (lookupPos_mem w.snakes w.nextId q hl)
      omega
  refine ⟨?_, ?_, ?_⟩
  · intro e he
    simp only [createSnakeW, List.mem_cons] at he ⊢
    rcases he with he | he
    · rw [he]
      omega
    · have := h1 e he
      omega
  · intro id c hmem
    simp only [createSnakeW] at hmem ⊢
    rw [mem_gridAddSnake] at hmem
    rcases hmem with hmem | ⟨hc, hid⟩
    · obtain ⟨q, hq, hcq⟩ := h2 id c hmem
      refine ⟨q, ?_, hcq⟩
      simp only [lookupPos]
      rw [if_neg ?_]
      · exact hq
      · intro h
        have := h1 _ (lookupPos_mem w.snakes id q hq)
        omega
    · subst hid
      refine ⟨p, ?_, hc⟩
      simp [lookupPos]
  · intro id q hq
    simp only [createSnakeW] at hq ⊢
    rw [mem_gridAddSnake]
    simp only [lookupPos] at hq
    by_cases he : w.nextId = id
    · rw [if_pos he] at hq
      right
      exact ⟨by rw [Option.some.inj hq], he.symm⟩
    · rw [if_neg he] at hq
      left
      exact h3 id q hq

theorem InvW_remove (w : WorldM) (id : Nat) (hw : InvW w) :
    InvW (removeSnakeW w id) := by
  obtain ⟨h1, h2, h3⟩ := hw
  unfold removeSnakeW
  cases hl : lookupPos w.snakes id with
  | none => exact ⟨h1, h2, h3⟩
  | some p0 =>
    refine ⟨?_, ?_, ?_⟩
    · intro e he
      exact h1 e (List.mem_of_mem_filter he)
    · intro id2 c hmem
      dsimp only at hmem ⊢
      rw [mem_gridRemoveSnake] at hmem
      obtain ⟨hmem, hnot⟩ := hmem
      obtain ⟨q, hq, hcq⟩ := h2 id2 c hmem
      have hne : id2 ≠ id := by
        intro h
        subst h
        rw [hq] at hl
        have := Option.some.inj hl
        subst this
        exact hnot ⟨hcq, rfl⟩
      refine ⟨q, ?_, hcq⟩
      rw [lookupPos_filter_ne w.snakes id id2 hne]
      exact hq
    · intro id2 q hq
      dsimp only at hq ⊢
      have hne : id2 ≠ id := by
        intro h
        subst h
        rw [lookupPos_filter_self] at hq
        exact Option.noConfusion hq
      rw [lookupPos_filter_ne w.snakes id id2 hne] at hq
      rw [mem_gridRemoveSnake]
      refine ⟨h3 id2 q hq, ?_⟩
      intro ⟨hc, hid⟩
      exact hne hid

theorem InvW_tickStep (mv : Nat → ℚ × ℚ → ℚ × ℚ) (w : WorldM) (sid : Nat)
    (hw : InvW w) : InvW (tickSnakeStep mv w sid) := by
  obtain ⟨h1, h2, h3⟩ := hw
  unfold tickSnakeStep
  cases hl : lookupPos w.snakes sid with
  | none => exact ⟨h1, h2, h3⟩
  | some oldp =>
    refine ⟨?_, ?_, ?_⟩
    · intro e he
      simp only [setPos, List.mem_map] at he
      obtain ⟨a, ha, hae⟩ := he
      have he1 : e.1 = a.1 := by
        by_cases h : a.1 = sid
        · rw [if_pos h] at hae
          rw [← hae]
        · rw [if_neg h] at hae
          rw [← hae]
      dsimp only
      rw [he1]
      exact h1 a ha
    · intro id2 c hmem
      dsimp only at hmem ⊢
      unfold gridUpdateSnakeSector at hmem
      by_cases hsec : worldToSector oldp ≠ worldToSector (mv sid oldp)
      · rw [if_pos hsec] at hmem
        rw [mem_gridAddSnake] at hmem
        rcases hmem with hmem | ⟨hc, hid⟩
        · rw [mem_gridRemoveSnake] at hmem
          obtain ⟨hmem, hnot⟩ := hmem
          obtain ⟨q, hq, hcq⟩ := h2 id2 c hmem
          by_cases hide : id2 = sid
          · subst hide
            rw [hl] at hq
            have hqo : oldp = q := Option.some.inj hq
            subst hqo
            exact absurd ⟨hcq, rfl⟩ hnot
          · refine ⟨q, ?_, hcq⟩
            rw [lookupPos_setPos_ne w.snakes sid id2 (mv sid oldp) hide]
            exact hq
        · subst hid
          refine ⟨mv id2 oldp, ?_, hc⟩
          rw [lookupPos_setPos_self, hl]
          rfl
      · rw [if_neg hsec] at hmem
        push_neg at hsec
        obtain ⟨q, hq, hcq⟩ := h2 id2 c hmem
        by_cases hide : id2 = sid
        · subst hide
          rw [hl] at hq
          have hqo : oldp = q := Option.some.inj hq
          subst hqo
          refine ⟨mv id2 oldp, ?_, ?_⟩
          · rw [lookupPos_setPos_self, hl]
            rfl
          · rw [hcq]
            exact hsec
        · refine ⟨q, ?_, hcq⟩
          rw [lookupPos_setPos_ne w.snakes sid id2 (mv sid oldp) hide]
          exact hq
    · intro id2 q hq
      dsimp only at hq ⊢
      unfold gridUpdateSnakeSector
      by_cases hide : id2 = sid
      · subst hide
        rw [lookupPos_setPos_self, hl] at hq
        have hqn : q = mv id2 oldp := (Option.some.inj hq).symm
        subst hqn
        by_cases hsec : worldToSector oldp ≠ worldToSector (mv id2 oldp)
        · rw [if_pos hsec, mem_gridAddSnake]
          right
          exact ⟨rfl, rfl⟩
        · rw [if_neg hsec]
          push_neg at hsec
          rw [← hsec]
          exact h3 id2 oldp hl
      · rw [lookupPos_setPos_ne w.snakes sid id2 (mv sid oldp) hide] at hq
        have hg := h3 id2 q hq
        by_cases hsec : worldToSector oldp ≠ worldToSector (mv sid oldp)
        · rw [if_pos hsec, mem_gridAddSnake]
          left
          rw [mem_gridRemoveSnake]
          exact ⟨hg, fun h => hide h.2⟩
        · rw [if_neg hsec]
          exact hg

theorem InvW_foldl (mv : Nat → ℚ × ℚ → ℚ × ℚ) :
    ∀ (ids : List Nat) (w : WorldM), InvW w →
      InvW (ids.foldl (tickSnakeStep mv) w) := by
  intro ids
  induction ids with
  | nil =>
    intro w hw
    exact hw
  | cons i rest ih =>
    intro w hw
    exact ih _ (InvW_tickStep mv w i hw)

theorem InvW_tick (w : WorldM) (mv : Nat → ℚ × ℚ → ℚ × ℚ)
    (spawn : Option (ℚ × ℚ)) (hw : InvW w) : InvW (tickW w mv spawn) := by
  unfold tickW
  cases spawn with
  | none => exact InvW_foldl mv _ w hw
  | some p => exact InvW_create _ p (InvW_foldl mv _ w hw)

theorem InvW_reachable (w : WorldM) (hw : ReachableW w) : InvW w := by
  induction hw with
  | init => exact InvW_initial
  | create w2 p _ ih => exact InvW_create w2 p ih
  | tick w2 mv spawn _ ih => exact InvW_tick w2 mv spawn ih
  | remove w2 id _ ih => exact InvW_remove w2 id ih

/-- C8: in every world state reachable by snake creation, ticking (with any
head motion), and snake removal, each snake id stored in some grid cell's
snake set belongs to a mapped snake, appears in exactly one cell, and that
cell is `world_to_sector` of the snake's current head position. -/
theorem C8_grid_membership (w : WorldM) (hw : ReachableW w) (id : Nat) (c : Nat × Nat)
    (hmem : id ∈ w.grid c) :
    (∃ p, lookupPos w.snakes id = some p ∧ c = worldToSector p) ∧
    ∀ c2, id ∈ w.grid c2 → c2 = c := by
  obtain ⟨h1, h2, h3⟩ := InvW_reachable w hw
  obtain ⟨p, hp, hcp⟩ := h2 id c hmem
  refine ⟨⟨p, hp, hcp⟩, ?_⟩
  intro c2 h2mem
  obtain ⟨q, hq, hcq⟩ := h2 id c2 h2mem
  rw [hp] at hq
  rw [hcq, ← Option.some.inj hq, ← hcp]

/-- Witness for C8: the world obtained by creating one snake at `(100, 200)`
is reachable; its grid holds id 1 exactly in cell `(0, 0)`, the sector of its
head. -/
theorem C8_grid_membership_witness :
    (∃ p, lookupPos (createSnakeW initialWorld (100, 200)).snakes 1 = some p ∧
      ((0 : Nat), (0 : Nat)) = worldToSector p) ∧
    ∀ c2, 1 ∈ (createSnakeW initialWorld (100, 200)).grid c2 →
      c2 = ((0 : Nat), (0 : Nat)) :=
  C8_grid_membership (createSnakeW initialWorld (100, 200))
    (ReachableW.create initialWorld (100, 200) ReachableW.init) 1 (0, 0)
    (by
      show 1 ∈ gridAddSnake (fun _ => (∅ : Finset Nat)) 1 ((100 : ℚ), (200 : ℚ)) (0, 0)
      rw [mem_gridAddSnake]
      right
      refine ⟨?_, rfl⟩
      unfold worldToSector
      norm_num)
